import Mathlib

/-!
Shallow embedding of the SQL front-end / query executor of
`parser-dbms-bd2` (`src/SqlParser.cpp`, `SqlParser.hpp`).

The storage engine (`DB_ENGINE::DBEngine`) is an external collaborator of
the executor: it is modelled as a structure of oracle functions, and the
executor's calls into it are recorded symbolically in a trace
(`EngineCall`).  Row predicates built from `engine.get_comparator` are
represented symbolically by the list of conditions that were compiled into
comparators, in compilation order; the C++ `joined_lambdas` closure is the
conjunction (`all_of`) of those comparators.
-/

namespace SqlDB

/-- Comparison operators (`Comp` enum in `Record.hpp`): `=`, `<`, `≤`, `>`, `≥`. -/
inductive Comp where
  | EQUAL
  | L
  | LE
  | G
  | GE
deriving DecidableEq, Inhabited, Repr

/-- A single-column condition (`condition_t`): column name, comparison value,
operator.  A default-constructed `condition_t` has an empty `column_name`
(the executor tests `constraint_key.column_name.empty()`). -/
structure condition_t where
  column_name : String
  value : String
  c : Comp
deriving DecidableEq, Inhabited, Repr

/-- A record is an ordered tuple of field values; record equality is
field-wise (`RecordHash` is consistent with equality, per the data-model
invariant). -/
abbrev Record := List String

/-- An engine key (`DB_ENGINE::Attribute`): either one of the sentinels
`KEY_LIMITS::MIN` / `KEY_LIMITS::MAX` (open range endpoints) or a concrete
`{name, value}` pair. -/
inductive Key where
  | keyMin
  | keyMax
  | attr (name : String) (value : String)
deriving DecidableEq, Repr

/-- Column type enum (`Type`); the executor only forwards these. -/
inductive ColType where
  | INT
  | FLOAT
  | VARCHAR (n : Nat)
  | BOOL
deriving DecidableEq, Repr

/-- A `CREATE TABLE` column spec (`column_t`): name, type, primary-key flag. -/
structure column_t where
  name : String
  type : ColType
  is_pk : Bool
deriving DecidableEq, Repr

/-- Engine timing map (`query_time_t`), modelled as an association list
with `std::map` insert-if-absent semantics (`mapInsertOne`). -/
abbrev query_time_t := List (String × Nat)

/-- `QueryResponse` returned by the engine: records plus per-stage timings. -/
structure QueryResponse where
  records : List Record
  query_times : query_time_t
deriving DecidableEq, Inhabited, Repr

/-- The externally visible `ParserResponse`. -/
structure ParserResponse where
  records : List Record
  query_times : query_time_t
  column_names : List String
  table_names : List String
  error : String
  code : Nat
deriving DecidableEq, Repr

/-- One recorded call from the executor into the storage engine.  Residual
predicates are recorded as the list of conditions compiled through
`engine.get_comparator` (the actual closure is their conjunction). -/
inductive EngineCall where
  | load (t : String) (cols : List String)
  | loadPred (t : String) (cols : List String) (pred : List condition_t)
  | search (t : String) (key : Key) (pred : List condition_t) (cols : List String)
  | rangeSearch (t : String) (lo : Key) (hi : Key) (pred : List condition_t) (cols : List String)
  | add (t : String) (values : List String)
  | removeKey (t : String) (key : Key)
  | createTable (t : String) (pk : String) (types : List ColType) (names : List String)
deriving DecidableEq, Repr

/-- `true` exactly for the index-driven query calls (`search` /
`range_search`). -/
def EngineCall.isIndexCall : EngineCall → Bool
  | .search _ _ _ _ => true
  | .rangeSearch _ _ _ _ _ => true
  | _ => false

/-- The engine oracle: the query operations the executor consumes.  Result
values are arbitrary functions of the call arguments (the engine is an
external collaborator). -/
structure Engine where
  get_table_names : List String
  get_table_attributes : String → List String
  get_indexes_names : String → List String
  load : String → List String → QueryResponse
  loadPred : String → List String → List condition_t → QueryResponse
  search : String → Key → List condition_t → List String → QueryResponse
  range_search : String → Key → Key → List condition_t → List String → QueryResponse

/-- Modelled from the spec: `engine.sort_attributes(t, cols)` is not part of
`src/` (the engine is external); per §6.2 it returns the same subset of
columns reordered to the table's schema order, i.e. the schema list filtered
to the requested set. -/
def Engine.sort_attributes (eng : Engine) (t : String) (cols : List String) : List String :=
  (eng.get_table_attributes t).filter (fun a => cols.contains a)

/-- `SqlParser::merge_records`: all of `vec1` in order, then each element of
`vec2` not already seen (`unique_elements` is seeded with `vec1` and grows
as elements of `vec2` are appended). -/
def merge_records (vec1 vec2 : List Record) : List Record :=
  (vec2.foldl
    (fun (acc : List Record × List Record) e =>
      if acc.2.contains e then acc else (acc.1 ++ [e], acc.2 ++ [e]))
    (vec1, vec1)).1

/-- One `std::map::insert` step: insert the pair only if its key is absent. -/
def mapInsertOne (m : query_time_t) (kv : String × Nat) : query_time_t :=
  if m.any (fun p => p.1 == kv.1) then m else m ++ [kv]

/-- `SqlParser::merge_times`: `times_1.insert(times_2.begin(), times_2.end())`,
i.e. insert each entry of `times_2` into `times_1` if its key is absent. -/
def merge_times (times_1 times_2 : query_time_t) : query_time_t :=
  times_2.foldl mapInsertOne times_1

/-- Key lookup in a timing map (first matching key). -/
def lookupTime (m : query_time_t) (k : String) : Option Nat :=
  List.lookup k m

/-- The state of the per-conjunct predicate compilation: the candidate index
driver (`constraint_key`, default-constructed ⇒ empty column name) and the
conditions compiled into residual comparators (`lambdas`). -/
structure Compiled where
  key : condition_t
  lambdas : List condition_t
deriving DecidableEq, Repr

/-- One iteration of the AND-group loop of `SqlParser::select`: a condition
on a non-indexed column becomes a residual comparator; an indexed condition
becomes the driver if none is chosen yet; otherwise it is left untouched. -/
def compileStep (idx : List String) (acc : Compiled) (cond : condition_t) : Compiled :=
  if !(idx.contains cond.column_name) then
    { acc with lambdas := acc.lambdas ++ [cond] }
  else if acc.key.column_name = "" then
    { acc with key := cond }
  else
    acc

/-- The whole AND-group loop: fold `compileStep` over the conjunct starting
from a default-constructed `constraint_key` and no residual comparators. -/
def compileConjunct (idx : List String) (conds : List condition_t) : Compiled :=
  conds.foldl (compileStep idx) { key := default, lambdas := [] }

/-- Record/time fusion of two `QueryResponse`s, as performed at the bottom of
the disjunct loop of `SqlParser::select`. -/
def mergeQR (a b : QueryResponse) : QueryResponse :=
  { query_times := merge_times a.query_times b.query_times
  , records := merge_records a.records b.records }

/-- `SqlParser::query_to_output`: copy records, timings, the engine's table
list and the sorted column names into the response buffer. -/
def query_to_output (eng : Engine) (qr : QueryResponse) (sorted : List String)
    (resp : ParserResponse) : ParserResponse :=
  { resp with
    records := qr.records
    query_times := qr.query_times
    table_names := eng.get_table_names
    column_names := sorted }

/-- The disjunct (OR) loop of `SqlParser::select`.  For each AND-group:
compile it; if no index driver was chosen, issue a filtered full scan and
break (the scan's response replaces the accumulator); on `=` issue a point
`search`; otherwise issue a `range_search` whose endpoints default to
`KEY_MIN`/`KEY_MAX` and are narrowed per the driver's operator; then fuse
the partial response and continue. -/
def selectLoop (eng : Engine) (t : String) (sorted : List String) :
    List (List condition_t) → QueryResponse → List EngineCall →
      List EngineCall × QueryResponse
  | [], qr, calls => (calls, qr)
  | oc :: rest, qr, calls =>
    let cp := compileConjunct (eng.get_indexes_names t) oc
    if cp.key.column_name = "" then
      (calls ++ [.loadPred t sorted cp.lambdas], eng.loadPred t sorted cp.lambdas)
    else if cp.key.c = Comp.EQUAL then
      selectLoop eng t sorted rest
        (mergeQR qr (eng.search t (.attr cp.key.column_name cp.key.value) cp.lambdas sorted))
        (calls ++ [.search t (.attr cp.key.column_name cp.key.value) cp.lambdas sorted])
    else
      let bk : Key := match cp.key.c with
        | .G | .GE => .attr cp.key.column_name cp.key.value
        | _ => .keyMin
      let ek : Key := match cp.key.c with
        | .L | .LE => .attr cp.key.column_name cp.key.value
        | _ => .keyMax
      selectLoop eng t sorted rest
        (mergeQR qr (eng.range_search t bk ek cp.lambdas sorted))
        (calls ++ [.rangeSearch t bk ek cp.lambdas sorted])

/-- `SqlParser::select`: sort the requested columns to schema order, check
that each exists, full-load on an empty constraint, otherwise run the
disjunct loop and emit through `query_to_output`. -/
def select (eng : Engine) (prev : ParserResponse) (t : String)
    (column_names : List String) (constraints : List (List condition_t)) :
    Except String (List EngineCall × ParserResponse) :=
  let sorted := eng.sort_attributes t column_names
  let attrs := eng.get_table_attributes t
  if sorted.any (fun col => !(attrs.contains col)) then
    .error "ColumnNotFound"
  else if constraints.isEmpty then
    .ok ([.load t sorted], query_to_output eng (eng.load t sorted) sorted prev)
  else
    let out := selectLoop eng t sorted constraints ⟨[], []⟩ []
    .ok (out.1, query_to_output eng out.2 sorted prev)

/-- `SqlParser::select_between`: `sorted_column_names` is a *copy* of the
requested columns (`auto sorted_column_names = column_names;`) and the call
`m_engine.sort_attributes(tablename, sorted_column_names)` discards its
return value; the engine cannot mutate the argument, because `select`
passes the same §6.2 operation a const reference at line 111, so the list
stays in request order.  Then: column check, a single `range_search` from
`{id, val1}` to `{id, val2}` with an empty residual, and the response
carries the request-order columns. -/
def select_between (eng : Engine) (prev : ParserResponse) (t : String)
    (column_names : List String) (id val1 val2 : String) :
    Except String (List EngineCall × ParserResponse) :=
  let sorted := column_names
  let attrs := eng.get_table_attributes t
  if sorted.any (fun col => !(attrs.contains col)) then
    .error "ColumnNotFound"
  else
    let qr := eng.range_search t (.attr id val1) (.attr id val2) [] sorted
    .ok ([.rangeSearch t (.attr id val1) (.attr id val2) [] sorted],
         query_to_output eng qr sorted prev)

/-- `SqlParser::insert`: forward the values to `engine.add` reversed
(`{values.rbegin(), values.rend()}`). -/
def insert (t : String) (values : List String) : List EngineCall :=
  [.add t values.reverse]

/-- `SqlParser::remove`: build the deletion key from the first condition of
the first disjunct (`constraint.front().front()`); calling `front()` on an
empty list is undefined behaviour in C++, modelled as `none`. -/
def remove (t : String) (constraint : List (List condition_t)) :
    Option (List EngineCall) :=
  match constraint with
  | (cond :: _) :: _ => some [.removeKey t (.attr cond.column_name cond.value)]
  | _ => none

/-- `SqlParser::create_table`: scan the columns, remembering the name of
each primary-key column (later ones overwrite earlier ones), and collect
types and names in source order; forward all to `engine.create_table`. -/
def create_table (t : String) (columns : List column_t) : List EngineCall :=
  let primary_key := columns.foldl (fun pk col => if col.is_pk then col.name else pk) ""
  [.createTable t primary_key (columns.map (fun col => col.type))
    (columns.map (fun col => col.name))]

/-- The flag state of a `std::istream`. -/
structure StreamState where
  eofbit : Bool
  failbit : Bool
  badbit : Bool
deriving DecidableEq, Repr

/-- `istream::good()`: no flag set. -/
def StreamState.good (s : StreamState) : Bool :=
  !s.eofbit && !s.failbit && !s.badbit

/-- `istream::eof()`: the eof bit. -/
def StreamState.eofFlag (s : StreamState) : Bool :=
  s.eofbit

/-- `istream::fail()`: failbit or badbit. -/
def StreamState.failFlag (s : StreamState) : Bool :=
  s.failbit || s.badbit

/-- Outcome of `SqlParser::parse(std::istream&)`: either the early return of
the current response with nothing invoked, or a run of `parse_helper`
(which binds a fresh scanner and parser to the stream). -/
inductive ParseOutcome where
  | returnedUnchanged (resp : ParserResponse)
  | ranHelper
deriving DecidableEq, Repr

/-- `SqlParser::parse(std::istream&)`: `if (!stream.good() && stream.eof())`
return the current response untouched; otherwise run `parse_helper`. -/
def parseStream (s : StreamState) (current : ParserResponse) : ParseOutcome :=
  if !s.good && s.eofFlag then .returnedUnchanged current else .ranHelper

/-- Specification-side description of the suffix `merge_records` appends:
the elements of the second vector that are equal neither to an element of
`seen` nor to an earlier element of the second vector (first occurrences
kept, relative order preserved). -/
def dedupKeepFirst (seen : List Record) : List Record → List Record
  | [] => []
  | e :: rest =>
    if seen.contains e then dedupKeepFirst seen rest
    else e :: dedupKeepFirst (seen ++ [e]) rest

/-- A concrete engine oracle used to exhibit concrete executions: table `t`
with schema `[a, b, c]` and a single index on column `a`. -/
def engEx : Engine :=
  { get_table_names := ["t"]
  , get_table_attributes := fun _ => ["a", "b", "c"]
  , get_indexes_names := fun _ => ["a"]
  , load := fun _ _ => { records := [["1", "x", "y"]], query_times := [("load0", 5)] }
  , loadPred := fun _ _ _ => { records := [["2", "u", "v"]], query_times := [("loadp", 6)] }
  , search := fun _ _ _ _ => { records := [["3", "s", "w"]], query_times := [("srch", 7)] }
  , range_search := fun _ _ _ _ _ => { records := [["4", "r", "q"]], query_times := [("rng", 8)] } }

/-- The same oracle with indexes on both `a` and `b`. -/
def engEx2 : Engine :=
  { engEx with get_indexes_names := fun _ => ["a", "b"] }

/-- An empty response buffer (a fresh `ParserResponse`). -/
def emptyResponse : ParserResponse :=
  { records := [], query_times := [], column_names := [], table_names := []
  , error := "", code := 200 }

/-! ## Helper lemmas about the timing merge -/

theorem mapInsertOne_key_mono (m : query_time_t) (kv : String × Nat) (k : String)
    (h : m.any (fun p => p.1 == k) = true) :
    (mapInsertOne m kv).any (fun p => p.1 == k) = true := by
  unfold mapInsertOne
  split
  · exact h
  · rw [List.any_append, h, Bool.true_or]

theorem mapInsertOne_self_key (m : query_time_t) (kv : String × Nat) :
    (mapInsertOne m kv).any (fun p => p.1 == kv.1) = true := by
  unfold mapInsertOne
  split
  · assumption
  · rw [List.any_append]
    simp

theorem merge_times_key_mono (t2 : query_time_t) :
    ∀ (m : query_time_t) (k : String), m.any (fun p => p.1 == k) = true →
      (merge_times m t2).any (fun p => p.1 == k) = true := by
  induction t2 with
  | nil => exact fun m k h => h
  | cons kv rest ih =>
    exact fun m k h => ih (mapInsertOne m kv) k (mapInsertOne_key_mono m kv k h)

theorem lookup_append_some (l1 l2 : query_time_t) (k : String) (v : Nat)
    (h : List.lookup k l1 = some v) : List.lookup k (l1 ++ l2) = some v := by
  induction l1 with
  | nil => simp [List.lookup] at h
  | cons kv rest ih =>
    rcases kv with ⟨k1, v1⟩
    rw [List.lookup_cons] at h
    rw [List.cons_append, List.lookup_cons]
    split at h
    · exact h
    · exact ih h

theorem mapInsertOne_lookup_some (m : query_time_t) (kv : String × Nat) (k : String) (v : Nat)
    (h : lookupTime m k = some v) : lookupTime (mapInsertOne m kv) k = some v := by
  unfold mapInsertOne lookupTime
  split
  · exact h
  · exact lookup_append_some m [kv] k v h

/-! ## Helper lemmas about the predicate compiler -/

theorem compileStep_key_frozen (idx : List String) (acc : Compiled) (cond : condition_t)
    (h : acc.key.column_name ≠ "") : (compileStep idx acc cond).key = acc.key := by
  simp only [compileStep]
  split
  · rfl
  · simp [h]

theorem compileStep_key_unindexed (idx : List String) (acc : Compiled) (cond : condition_t)
    (h : idx.contains cond.column_name = false) :
    (compileStep idx acc cond).key = acc.key := by
  unfold compileStep
  rw [if_pos (by rw [h]; rfl)]

theorem foldl_compileStep_lambdas (idx : List String) (conds : List condition_t) :
    ∀ acc : Compiled,
      (conds.foldl (compileStep idx) acc).lambdas =
        acc.lambdas ++ conds.filter (fun cond => !(idx.contains cond.column_name)) := by
  induction conds with
  | nil => intro acc; simp
  | cons cond rest ih =>
    intro acc
    simp only [List.foldl_cons, List.filter_cons]
    rw [ih]
    by_cases h : idx.contains cond.column_name
    · rw [h]
      have hstep : (compileStep idx acc cond).lambdas = acc.lambdas := by
        unfold compileStep
        rw [if_neg (by rw [h]; simp)]
        split <;> rfl
      rw [hstep]
      rfl
    · rw [Bool.not_eq_true] at h
      rw [h]
      have hstep : (compileStep idx acc cond).lambdas = acc.lambdas ++ [cond] := by
        unfold compileStep
        rw [if_pos (by rw [h]; rfl)]
      rw [hstep, List.append_assoc]
      rfl

theorem foldl_compileStep_key_frozen (idx : List String) (conds : List condition_t) :
    ∀ acc : Compiled, acc.key.column_name ≠ "" →
      (conds.foldl (compileStep idx) acc).key = acc.key := by
  induction conds with
  | nil => exact fun acc _ => rfl
  | cons cond rest ih =>
    intro acc h
    have hs := compileStep_key_frozen idx acc cond h
    simp only [List.foldl_cons]
    rw [ih (compileStep idx acc cond) (by rw [hs]; exact h), hs]

theorem foldl_compileStep_key_unindexed (idx : List String) (conds : List condition_t) :
    ∀ acc : Compiled, (∀ cond ∈ conds, idx.contains cond.column_name = false) →
      (conds.foldl (compileStep idx) acc).key = acc.key := by
  induction conds with
  | nil => exact fun acc _ => rfl
  | cons cond rest ih =>
    intro acc h
    have hs := compileStep_key_unindexed idx acc cond (h cond (List.mem_cons_self _ _))
    simp only [List.foldl_cons]
    rw [ih (compileStep idx acc cond) (fun x hx => h x (List.mem_cons_of_mem _ hx)), hs]

theorem foldl_compileStep_key_ne_empty (idx : List String) (conds : List condition_t) :
    ∀ acc : Compiled,
      (acc.key.column_name ≠ "" ∨
        ∃ cond ∈ conds, idx.contains cond.column_name = true ∧ cond.column_name ≠ "") →
      (conds.foldl (compileStep idx) acc).key.column_name ≠ "" := by
  induction conds with
  | nil =>
    rintro acc (h | ⟨cond, hc, _⟩)
    · exact h
    · exact absurd hc (List.not_mem_nil cond)
  | cons cond rest ih =>
    rintro acc (h | ⟨c, hc, hidx, hne⟩)
    · simp only [List.foldl_cons]
      exact ih _ (Or.inl (by rw [compileStep_key_frozen idx acc cond h]; exact h))
    · simp only [List.foldl_cons]
      rcases List.mem_cons.mp hc with rfl | hmem
      · by_cases hk : acc.key.column_name = ""
        · refine ih _ (Or.inl ?_)
          have hstep : compileStep idx acc c = { acc with key := c } := by
            unfold compileStep
            rw [if_neg (by rw [hidx]; simp), if_pos hk]
          rw [hstep]
          exact hne
        · exact ih _ (Or.inl (by rw [compileStep_key_frozen idx acc c hk]; exact hk))
      · exact ih _ (Or.inr ⟨c, hmem, hidx, hne⟩)

theorem foldl_compileStep_key_find (idx : List String) (conds : List condition_t) :
    ∀ acc : Compiled, acc.key.column_name = "" →
      (∀ cond ∈ conds, cond.column_name ≠ "") →
      (conds.foldl (compileStep idx) acc).key =
        (conds.find? (fun cond => idx.contains cond.column_name)).getD acc.key := by
  induction conds with
  | nil => intro acc _ _; simp
  | cons cond rest ih =>
    intro acc hk hne
    simp only [List.foldl_cons]
    by_cases h : idx.contains cond.column_name
    · have hstep : compileStep idx acc cond = { acc with key := cond } := by
        unfold compileStep
        rw [if_neg (by rw [h]; simp), if_pos hk]
      rw [hstep, List.find?_cons_of_pos (p := fun c => idx.contains c.column_name) rest h]
      exact foldl_compileStep_key_frozen idx rest _ (hne cond (List.mem_cons_self _ _))
    · have hstep : (compileStep idx acc cond).key = acc.key := by
        rw [Bool.not_eq_true] at h
        exact compileStep_key_unindexed idx acc cond h
      rw [List.find?_cons_of_neg (p := fun c => idx.contains c.column_name) rest h]
      have := ih (compileStep idx acc cond) (by rw [hstep]; exact hk)
        (fun x hx => hne x (List.mem_cons_of_mem _ hx))
      rw [this, hstep]

/-! ## Helper lemmas about the SELECT executor -/

theorem sort_check_passes (attrs cols : List String) :
    (attrs.filter (fun a => cols.contains a)).any (fun col => !(attrs.contains col)) = false := by
  rw [List.any_eq_false]
  intro x hx
  have hm : x ∈ attrs := (List.mem_filter.mp hx).1
  simp [hm]

theorem select_check_false (eng : Engine) (t : String) (cols : List String) :
    ((eng.sort_attributes t cols).any
      (fun col => !((eng.get_table_attributes t).contains col))) = false :=
  sort_check_passes (eng.get_table_attributes t) cols

theorem select_eq_loop (eng : Engine) (prev : ParserResponse) (t : String)
    (cols : List String) (cs : List (List condition_t)) (h : cs ≠ []) :
    select eng prev t cols cs =
      .ok ((selectLoop eng t (eng.sort_attributes t cols) cs ⟨[], []⟩ []).1,
           query_to_output eng
             (selectLoop eng t (eng.sort_attributes t cols) cs ⟨[], []⟩ []).2
             (eng.sort_attributes t cols) prev) := by
  have hempty : cs.isEmpty = false := by
    cases cs
    · exact absurd rfl h
    · rfl
  simp only [select]
  rw [if_neg (by rw [select_check_false]; simp), if_neg (by rw [hempty]; simp)]

theorem select_nil_eq (eng : Engine) (prev : ParserResponse) (t : String)
    (cols : List String) :
    select eng prev t cols [] =
      .ok ([.load t (eng.sort_attributes t cols)],
           query_to_output eng (eng.load t (eng.sort_attributes t cols))
             (eng.sort_attributes t cols) prev) := by
  simp only [select]
  rw [if_neg (by rw [select_check_false]; simp)]
  rfl

theorem select_returns_ok (eng : Engine) (prev : ParserResponse) (t : String)
    (cols : List String) (cs : List (List condition_t)) :
    ∃ tr resp, select eng prev t cols cs = .ok (tr, resp) := by
  rcases cs with _ | ⟨oc, rest⟩
  · exact ⟨_, _, select_nil_eq eng prev t cols⟩
  · exact ⟨_, _, select_eq_loop eng prev t cols _ (List.cons_ne_nil oc rest)⟩

theorem select_ok_column_names (eng : Engine) (prev : ParserResponse) (t : String)
    (cols : List String) (cs : List (List condition_t))
    (tr : List EngineCall) (resp : ParserResponse)
    (h : select eng prev t cols cs = .ok (tr, resp)) :
    resp.column_names = eng.sort_attributes t cols := by
  rcases cs with _ | ⟨oc, rest⟩
  · rw [select_nil_eq eng prev t cols] at h
    rw [Except.ok.injEq, Prod.mk.injEq] at h
    rw [← h.2]
    rfl
  · rw [select_eq_loop eng prev t cols _ (List.cons_ne_nil oc rest)] at h
    rw [Except.ok.injEq, Prod.mk.injEq] at h
    rw [← h.2]
    rfl

theorem select_between_eq (eng : Engine) (prev : ParserResponse) (t : String)
    (cols : List String) (id v1 v2 : String)
    (hex : ∀ c ∈ cols, c ∈ eng.get_table_attributes t) :
    select_between eng prev t cols id v1 v2 =
      .ok ([.rangeSearch t (.attr id v1) (.attr id v2) [] cols],
           query_to_output eng
             (eng.range_search t (.attr id v1) (.attr id v2) [] cols)
             cols prev) := by
  have hchk : (cols.any (fun col => !((eng.get_table_attributes t).contains col))) = false := by
    rw [List.any_eq_false]
    intro x hx
    simp [hex x hx]
  simp only [select_between]
  rw [if_neg (by rw [hchk]; simp)]

theorem selectLoop_calls_extend (eng : Engine) (t : String) (sorted : List String)
    (cs : List (List condition_t)) :
    ∀ (qr : QueryResponse) (calls : List EngineCall),
      ∃ extra, (selectLoop eng t sorted cs qr calls).1 = calls ++ extra := by
  induction cs with
  | nil =>
    intro qr calls
    exact ⟨[], by simp [selectLoop]⟩
  | cons oc rest ih =>
    intro qr calls
    simp only [selectLoop]
    by_cases hk : (compileConjunct (eng.get_indexes_names t) oc).key.column_name = ""
    · rw [if_pos hk]
      exact ⟨_, rfl⟩
    · rw [if_neg hk]
      by_cases hc : (compileConjunct (eng.get_indexes_names t) oc).key.c = Comp.EQUAL
      · rw [if_pos hc]
        obtain ⟨extra, he⟩ := ih _ _
        exact ⟨_, by rw [he, List.append_assoc]⟩
      · rw [if_neg hc]
        obtain ⟨extra, he⟩ := ih _ _
        exact ⟨_, by rw [he, List.append_assoc]⟩

theorem selectLoop_cons_indexed (eng : Engine) (t : String) (sorted : List String)
    (oc : List condition_t) (rest : List (List condition_t))
    (qr : QueryResponse) (calls : List EngineCall)
    (hk : (compileConjunct (eng.get_indexes_names t) oc).key.column_name ≠ "") :
    ∃ C qrS, C.isIndexCall = true ∧
      selectLoop eng t sorted (oc :: rest) qr calls
        = selectLoop eng t sorted rest (mergeQR qr qrS) (calls ++ [C]) := by
  simp only [selectLoop]
  rw [if_neg hk]
  by_cases hc : (compileConjunct (eng.get_indexes_names t) oc).key.c = Comp.EQUAL
  · rw [if_pos hc]
    refine ⟨_, _, ?_, rfl⟩
    rfl
  · rw [if_neg hc]
    refine ⟨_, _, ?_, rfl⟩
    rfl

theorem selectLoop_skip_indexed (eng : Engine) (t : String) (sorted : List String)
    (pre : List (List condition_t)) :
    ∀ (rest : List (List condition_t)) (qr : QueryResponse) (calls : List EngineCall),
      (∀ oc ∈ pre, (compileConjunct (eng.get_indexes_names t) oc).key.column_name ≠ "") →
      ∃ extra qr2,
        selectLoop eng t sorted (pre ++ rest) qr calls
          = selectLoop eng t sorted rest qr2 (calls ++ extra)
        ∧ extra.length = pre.length
        ∧ ∀ c ∈ extra, c.isIndexCall = true := by
  induction pre with
  | nil =>
    intro rest qr calls _
    exact ⟨[], qr, by simp, rfl, by simp⟩
  | cons oc pre ih =>
    intro rest qr calls hpre
    rw [List.cons_append]
    obtain ⟨C, qrS, hCidx, hstep⟩ :=
      selectLoop_cons_indexed eng t sorted oc (pre ++ rest) qr calls
        (hpre oc (List.mem_cons_self _ _))
    rw [hstep]
    obtain ⟨extra, qr2, h1, h2, h3⟩ :=
      ih rest (mergeQR qr qrS) (calls ++ [C])
        (fun x hx => hpre x (List.mem_cons_of_mem _ hx))
    refine ⟨C :: extra, qr2, ?_, ?_, ?_⟩
    · rw [h1, List.append_assoc]
      rfl
    · simp [h2]
    · intro c hmem
      rcases List.mem_cons.mp hmem with rfl | hmem2
      · exact hCidx
      · exact h3 c hmem2

/-! ## Helper lemma about the record merge -/

theorem merge_records_foldl (B : List Record) :
    ∀ acc : List Record,
      (B.foldl
        (fun (p : List Record × List Record) e =>
          if p.2.contains e then p else (p.1 ++ [e], p.2 ++ [e]))
        (acc, acc)).1
        = acc ++ dedupKeepFirst acc B := by
  induction B with
  | nil => intro acc; simp [dedupKeepFirst]
  | cons e rest ih =>
    intro acc
    simp only [List.foldl_cons, dedupKeepFirst]
    by_cases h : acc.contains e
    · rw [if_pos h, if_pos h]
      exact ih acc
    · rw [if_neg h, if_neg h]
      rw [ih (acc ++ [e]), List.append_assoc]
      rfl

/-! ## Claim theorems -/

/-- C3 counterexample: `merge_times` is built on `std::map::insert`, which
does not overwrite an existing key.  At `T1 = [(k,1)]`, `T2 = [(k,2)]` the
merged map still holds `T1`'s value `1` for `k`, not `T2`'s value `2` as the
claim states. -/
theorem merge_times_collision_cex :
    lookupTime [("k", 1)] "k" = some 1
    ∧ lookupTime [("k", 2)] "k" = some 2
    ∧ lookupTime (merge_times [("k", 1)] [("k", 2)]) "k" = some 1
    ∧ ¬ lookupTime (merge_times [("k", 1)] [("k", 2)]) "k" = some 2 := by
  decide

/-- C3 (amended): `merge_times(T1, T2)` yields a map containing every key of
`T2`, and for every key already bound in `T1` the resulting value is `T1`'s
value (insert-if-absent semantics: `T1`, not `T2`, wins the collision). -/
theorem merge_times_insert_semantics (t1 t2 : query_time_t) :
    (∀ k, t2.any (fun p => p.1 == k) = true →
        (merge_times t1 t2).any (fun p => p.1 == k) = true)
    ∧ (∀ k v, lookupTime t1 k = some v →
        lookupTime (merge_times t1 t2) k = some v) := by
  constructor
  · intro k h
    induction t2 generalizing t1 with
    | nil => simp at h
    | cons kv rest ih =>
      rw [List.any_cons, Bool.or_eq_true] at h
      rcases h with hkv | hrest
      · have hk : kv.1 = k := eq_of_beq hkv
        subst hk
        exact merge_times_key_mono rest (mapInsertOne t1 kv) kv.1
          (mapInsertOne_self_key t1 kv)
      · exact ih (mapInsertOne t1 kv) hrest
  · intro k v h
    induction t2 generalizing t1 with
    | nil => exact h
    | cons kv rest ih => exact ih (mapInsertOne t1 kv) (mapInsertOne_lookup_some t1 kv k v h)

/-- C3 witness: the amended theorem applied at `T1 = [(a,1)]`,
`T2 = [(a,2), (b,3)]`: key `b` of `T2` is present in the merge, and key `a`
keeps `T1`'s value `1`. -/
theorem merge_times_insert_semantics_witness :
    (merge_times [("a", 1)] [("a", 2), ("b", 3)]).any (fun p => p.1 == "b") = true
    ∧ lookupTime (merge_times [("a", 1)] [("a", 2), ("b", 3)]) "a" = some 1 :=
  ⟨(merge_times_insert_semantics [("a", 1)] [("a", 2), ("b", 3)]).1 "b" (by decide),
   (merge_times_insert_semantics [("a", 1)] [("a", 2), ("b", 3)]).2 "a" 1 (by decide)⟩

/-- C5 counterexample: the guard of `SqlParser::parse(std::istream&)` is
`!good() && eof()`, which is equivalent to `eof()` alone.  A stream with
only the fail bit set is in a failed state, yet `parse` does not return the
current response unchanged: it proceeds to bind a fresh scanner and parser
(`parse_helper`). -/
theorem parse_failed_stream_cex :
    StreamState.failFlag ⟨false, true, false⟩ = true
    ∧ parseStream ⟨false, true, false⟩ emptyResponse = ParseOutcome.ranHelper
    ∧ ¬ parseStream ⟨false, true, false⟩ emptyResponse
        = ParseOutcome.returnedUnchanged emptyResponse := by
  decide

/-- C5 (amended): `parse(stream)` returns the current response unchanged,
invoking neither scanner, parser nor engine, exactly when the stream's eof
bit is set; any other stream state (including failed-but-not-eof) binds a
fresh scanner and parser via `parse_helper`. -/
theorem parse_eof_guard (s : StreamState) (current : ParserResponse) :
    parseStream s current
      = if s.eofbit then ParseOutcome.returnedUnchanged current
        else ParseOutcome.ranHelper := by
  rcases s with ⟨e, f, b⟩
  cases e <;> cases f <;> cases b <;> rfl

/-- C6 counterexample: the claim describes the appended suffix as exactly
the elements of `B` not value-equal to an element of `A`.  At `A = []`,
`B = [r, r]` that description yields `[r, r]`, but `merge_records` also
de-duplicates within `B` and returns `[r]`. -/
theorem merge_records_within_dup_cex :
    merge_records [] [["x"], ["x"]] = [["x"]]
    ∧ ¬ (merge_records [] [["x"], ["x"]]
          = [] ++ List.filter (fun b => !(List.contains ([] : List Record) b))
              [["x"], ["x"]]) := by
  decide

/-- C6 (amended): `merge_records(A, B)` returns all of `A` in order,
followed by those elements of `B` equal neither to an element of `A` nor to
an earlier element of `B` (first occurrences kept), in `B`'s relative
order; de-duplication is by record-value equality. -/
theorem merge_records_spec (A B : List Record) :
    merge_records A B = A ++ dedupKeepFirst A B := by
  unfold merge_records
  exact merge_records_foldl B A

/-- C7: `SqlParser::insert` forwards to `engine.add` exactly one value list,
of the same length as the input, whose `i`-th element is the input's
`(n-1-i)`-th element: the values arrive at the engine in reverse of the
order in which the grammar delivered them. -/
theorem insert_reversal (t : String) (values : List String) :
    ∃ w, insert t values = [.add t w]
      ∧ w.length = values.length
      ∧ ∀ i : Nat, i < values.length →
          w[i]? = values[values.length - 1 - i]? := by
  refine ⟨values.reverse, rfl, values.length_reverse, ?_⟩
  intro i h
  exact List.getElem?_reverse h

/-- C7 witness: inserting `(v1, v2, v3)` forwards `[v3, v2, v1]`. -/
theorem insert_reversal_witness :
    ∃ w, insert "t" ["v1", "v2", "v3"] = [.add "t" w]
      ∧ w.length = (["v1", "v2", "v3"] : List String).length
      ∧ ∀ i : Nat, i < (["v1", "v2", "v3"] : List String).length →
          w[i]? = (["v1", "v2", "v3"] : List String)[(["v1", "v2", "v3"] : List String).length - 1 - i]? :=
  insert_reversal "t" ["v1", "v2", "v3"]

/-- C9: when the constraint's first disjunct is non-empty, `remove` issues
exactly one `engine.remove` with the key `{column_name, value}` of the first
condition of the first disjunct; the remaining conditions of that disjunct
and all further disjuncts do not influence the call. -/
theorem remove_first_condition_key (t : String) (constraint : List (List condition_t))
    (cond : condition_t) (tl : List condition_t) (rest : List (List condition_t))
    (h : constraint = (cond :: tl) :: rest) :
    remove t constraint = some [.removeKey t (.attr cond.column_name cond.value)] := by
  subst h
  rfl

/-- C9 witness: a constraint with extra conditions and disjuncts still
yields the single key of the first condition. -/
theorem remove_first_condition_key_witness :
    remove "t" [[⟨"id", "5", Comp.EQUAL⟩, ⟨"age", "30", Comp.L⟩], [⟨"id", "7", Comp.EQUAL⟩]]
      = some [.removeKey "t" (.attr "id" "5")] :=
  remove_first_condition_key "t" _ ⟨"id", "5", Comp.EQUAL⟩ [⟨"age", "30", Comp.L⟩]
    [[⟨"id", "7", Comp.EQUAL⟩]] rfl

/-- Auxiliary: the primary-key fold of `create_table` ignores a suffix of
non-primary-key columns. -/
theorem pk_fold_no_pk (l : List column_t) :
    ∀ a : String, (∀ col ∈ l, col.is_pk = false) →
      l.foldl (fun pk col => if col.is_pk then col.name else pk) a = a := by
  induction l with
  | nil => intro a _; rfl
  | cons col rest ih =>
    intro a h
    simp only [List.foldl_cons]
    rw [if_neg (by rw [h col (List.mem_cons_self _ _)]; simp)]
    exact ih a (fun x hx => h x (List.mem_cons_of_mem _ hx))

/-- C10: `create_table` forwards a single engine call whose primary-key
name is the empty string when no column is marked primary, and the name of
the last marked column when several are; column types and names are always
forwarded complete and in source order. -/
theorem create_table_primary_key_last (t : String) (columns : List column_t) :
    ∃ pk, create_table t columns
        = [.createTable t pk (columns.map (fun col => col.type))
            (columns.map (fun col => col.name))]
      ∧ ((∀ col ∈ columns, col.is_pk = false) → pk = "")
      ∧ (∀ l1 (c : column_t) l2, columns = l1 ++ c :: l2 → c.is_pk = true →
          (∀ col ∈ l2, col.is_pk = false) → pk = c.name) := by
  refine ⟨columns.foldl (fun pk col => if col.is_pk then col.name else pk) "", ?_, ?_, ?_⟩
  · rfl
  · exact fun h => pk_fold_no_pk columns "" h
  · intro l1 c l2 hsplit hc h2
    subst hsplit
    rw [List.foldl_append]
    simp only [List.foldl_cons]
    rw [if_pos hc]
    exact pk_fold_no_pk l2 c.name h2

/-- C10 witness: two primary-key columns; the engine receives the last
one's name, with all types and names in source order. -/
theorem create_table_primary_key_last_witness :
    ∃ pk, create_table "t"
          [⟨"a", ColType.INT, true⟩, ⟨"b", ColType.BOOL, false⟩, ⟨"c", ColType.INT, true⟩]
        = [.createTable "t" pk [ColType.INT, ColType.BOOL, ColType.INT] ["a", "b", "c"]]
      ∧ ((∀ col ∈ ([⟨"a", ColType.INT, true⟩, ⟨"b", ColType.BOOL, false⟩,
            ⟨"c", ColType.INT, true⟩] : List column_t), col.is_pk = false) → pk = "")
      ∧ (∀ l1 (c : column_t) l2,
          ([⟨"a", ColType.INT, true⟩, ⟨"b", ColType.BOOL, false⟩,
            ⟨"c", ColType.INT, true⟩] : List column_t) = l1 ++ c :: l2 →
          c.is_pk = true → (∀ col ∈ l2, col.is_pk = false) → pk = c.name) :=
  create_table_primary_key_last "t"
    [⟨"a", ColType.INT, true⟩, ⟨"b", ColType.BOOL, false⟩, ⟨"c", ColType.INT, true⟩]

/-- C1: when every disjunct before `d` drives an index and `d` has no
condition on an indexed column, the executor issues one filtered full scan
(`engine.load` with `d`'s full residual) for `d`, breaks out of the
disjunct loop (no call for the later disjuncts), and the emitted response's
record set is exactly that scan's records: the index calls of the earlier
disjuncts contribute nothing. -/
theorem unindexed_disjunct_short_circuit
    (eng : Engine) (prev : ParserResponse) (t : String) (cols : List String)
    (pre : List (List condition_t)) (d : List condition_t)
    (post : List (List condition_t))
    (hpre : ∀ oc ∈ pre, ∃ cond ∈ oc,
      (eng.get_indexes_names t).contains cond.column_name = true ∧ cond.column_name ≠ "")
    (hd : ∀ cond ∈ d, (eng.get_indexes_names t).contains cond.column_name = false) :
    ∃ preCalls,
      select eng prev t cols (pre ++ d :: post)
        = .ok (preCalls ++ [.loadPred t (eng.sort_attributes t cols) d],
               query_to_output eng
                 (eng.loadPred t (eng.sort_attributes t cols) d)
                 (eng.sort_attributes t cols) prev)
      ∧ preCalls.length = pre.length
      ∧ (∀ c ∈ preCalls, c.isIndexCall = true)
      ∧ (query_to_output eng (eng.loadPred t (eng.sort_attributes t cols) d)
           (eng.sort_attributes t cols) prev).records
          = (eng.loadPred t (eng.sort_attributes t cols) d).records := by
  have hkeys : ∀ oc ∈ pre,
      (compileConjunct (eng.get_indexes_names t) oc).key.column_name ≠ "" := by
    intro oc hoc
    exact foldl_compileStep_key_ne_empty _ oc _ (Or.inr (hpre oc hoc))
  have hdkey : (compileConjunct (eng.get_indexes_names t) d).key.column_name = "" := by
    unfold compileConjunct
    rw [foldl_compileStep_key_unindexed (eng.get_indexes_names t) d ⟨default, []⟩ hd]
    rfl
  have hdlam : (compileConjunct (eng.get_indexes_names t) d).lambdas = d := by
    unfold compileConjunct
    rw [foldl_compileStep_lambdas]
    rw [show (⟨default, []⟩ : Compiled).lambdas = [] from rfl, List.nil_append]
    exact List.filter_eq_self.mpr (fun a ha => by rw [hd a ha]; rfl)
  have hnn : pre ++ d :: post ≠ [] := by
    intro hcontra
    exact absurd (List.append_eq_nil.mp hcontra).2 (List.cons_ne_nil d post)
  rw [select_eq_loop eng prev t cols _ hnn]
  obtain ⟨extra, qr2, h1, h2, h3⟩ :=
    selectLoop_skip_indexed eng t (eng.sort_attributes t cols) pre (d :: post)
      ⟨[], []⟩ [] hkeys
  rw [h1]
  simp only [selectLoop]
  rw [if_pos hdkey, hdlam]
  exact ⟨extra, rfl, h2, h3, rfl⟩

/-- C1 witness: table `t` in `engEx` has only column `a` indexed; the
middle disjunct on `b` triggers the full-scan break, with one index call
before it and none after. -/
theorem unindexed_disjunct_short_circuit_witness :
    ∃ preCalls,
      select engEx emptyResponse "t" ["b", "a"]
          ([[⟨"a", "1", Comp.EQUAL⟩]] ++ [⟨"b", "2", Comp.EQUAL⟩] :: [[⟨"a", "9", Comp.GE⟩]])
        = .ok (preCalls ++
                 [.loadPred "t" (engEx.sort_attributes "t" ["b", "a"])
                   [⟨"b", "2", Comp.EQUAL⟩]],
               query_to_output engEx
                 (engEx.loadPred "t" (engEx.sort_attributes "t" ["b", "a"])
                   [⟨"b", "2", Comp.EQUAL⟩])
                 (engEx.sort_attributes "t" ["b", "a"]) emptyResponse)
      ∧ preCalls.length = ([[⟨"a", "1", Comp.EQUAL⟩]] : List (List condition_t)).length
      ∧ (∀ c ∈ preCalls, c.isIndexCall = true)
      ∧ (query_to_output engEx
           (engEx.loadPred "t" (engEx.sort_attributes "t" ["b", "a"])
             [⟨"b", "2", Comp.EQUAL⟩])
           (engEx.sort_attributes "t" ["b", "a"]) emptyResponse).records
          = (engEx.loadPred "t" (engEx.sort_attributes "t" ["b", "a"])
              [⟨"b", "2", Comp.EQUAL⟩]).records :=
  unindexed_disjunct_short_circuit engEx emptyResponse "t" ["b", "a"]
    [[⟨"a", "1", Comp.EQUAL⟩]] [⟨"b", "2", Comp.EQUAL⟩] [[⟨"a", "9", Comp.GE⟩]]
    (by decide) (by decide)

/-- C2 counterexample: with both `a` and `b` indexed, the conjunct
`a = 1 AND b = 2` compiles to driver `a = 1` with an *empty* residual: the
second indexed condition `b = 2` is silently dropped (the `else if` chain
of the AND loop neither assigns it nor builds a comparator for it), and
the issued `engine.search` carries an empty residual predicate — contrary
to the claim that every non-driver indexed condition appears in the
residual. -/
theorem second_indexed_condition_dropped_cex :
    (compileConjunct ["a", "b"] [⟨"a", "1", Comp.EQUAL⟩, ⟨"b", "2", Comp.EQUAL⟩]).key
        = ⟨"a", "1", Comp.EQUAL⟩
    ∧ (⟨"b", "2", Comp.EQUAL⟩ : condition_t) ∉
        (compileConjunct ["a", "b"] [⟨"a", "1", Comp.EQUAL⟩, ⟨"b", "2", Comp.EQUAL⟩]).lambdas
    ∧ (∃ out, select engEx2 emptyResponse "t" ["a", "b"]
          [[⟨"a", "1", Comp.EQUAL⟩, ⟨"b", "2", Comp.EQUAL⟩]]
        = .ok ([.search "t" (.attr "a" "1") [] ["a", "b"]], out)) :=
  ⟨by decide, by decide, ⟨_, rfl⟩⟩

/-- C2 (amended): for a conjunct whose conditions all carry non-empty
column names, the index driver is the first condition in source order whose
column is indexed, and the residual predicate consists of exactly the
conditions on non-indexed columns, in source order; subsequent indexed
conditions are dropped entirely (they appear neither as the driver nor in
the residual). -/
theorem index_driver_first_residual_unindexed (idx : List String)
    (conds : List condition_t)
    (hne : ∀ cond ∈ conds, cond.column_name ≠ "") :
    (compileConjunct idx conds).key
        = (conds.find? (fun cond => idx.contains cond.column_name)).getD default
    ∧ (compileConjunct idx conds).lambdas
        = conds.filter (fun cond => !(idx.contains cond.column_name)) := by
  constructor
  · unfold compileConjunct
    exact foldl_compileStep_key_find idx conds ⟨default, []⟩ rfl hne
  · unfold compileConjunct
    rw [foldl_compileStep_lambdas]
    rfl

/-- C2 witness: the amended theorem at `idx = [a, b]`,
`conds = [a = 1, b = 2, c < 3]`: driver `a = 1`, residual `[c < 3]`. -/
theorem index_driver_first_residual_unindexed_witness :
    (compileConjunct ["a", "b"]
        [⟨"a", "1", Comp.EQUAL⟩, ⟨"b", "2", Comp.EQUAL⟩, ⟨"c", "3", Comp.L⟩]).key
        = (([⟨"a", "1", Comp.EQUAL⟩, ⟨"b", "2", Comp.EQUAL⟩, ⟨"c", "3", Comp.L⟩]
            : List condition_t).find?
              (fun cond => (["a", "b"] : List String).contains cond.column_name)).getD default
    ∧ (compileConjunct ["a", "b"]
        [⟨"a", "1", Comp.EQUAL⟩, ⟨"b", "2", Comp.EQUAL⟩, ⟨"c", "3", Comp.L⟩]).lambdas
        = ([⟨"a", "1", Comp.EQUAL⟩, ⟨"b", "2", Comp.EQUAL⟩, ⟨"c", "3", Comp.L⟩]
            : List condition_t).filter
              (fun cond => !((["a", "b"] : List String).contains cond.column_name)) :=
  index_driver_first_residual_unindexed ["a", "b"]
    [⟨"a", "1", Comp.EQUAL⟩, ⟨"b", "2", Comp.EQUAL⟩, ⟨"c", "3", Comp.L⟩] (by decide)

/-- C8: a disjunct reached by the loop whose compiled driver is non-empty
issues, at trace position `pre.length`, a `search` on `{col, val}` when the
driver's operator is `=`, a `range_search` from `KEY_MIN` to `{col, val}`
when it is `<` or `≤`, and a `range_search` from `{col, val}` to `KEY_MAX`
when it is `>` or `≥`; in every case the compiled residual and the sorted
column list are passed along. -/
theorem index_driver_call_shape
    (eng : Engine) (prev : ParserResponse) (t : String) (cols : List String)
    (pre : List (List condition_t)) (oc : List condition_t)
    (post : List (List condition_t))
    (hpre : ∀ d ∈ pre, ∃ cond ∈ d,
      (eng.get_indexes_names t).contains cond.column_name = true ∧ cond.column_name ≠ "")
    (hk : (compileConjunct (eng.get_indexes_names t) oc).key.column_name ≠ "") :
    ∃ preCalls laterCalls out,
      select eng prev t cols (pre ++ oc :: post)
        = .ok (preCalls ++
                (if (compileConjunct (eng.get_indexes_names t) oc).key.c = Comp.EQUAL then
                  EngineCall.search t
                    (.attr (compileConjunct (eng.get_indexes_names t) oc).key.column_name
                           (compileConjunct (eng.get_indexes_names t) oc).key.value)
                    (compileConjunct (eng.get_indexes_names t) oc).lambdas
                    (eng.sort_attributes t cols)
                 else if (compileConjunct (eng.get_indexes_names t) oc).key.c = Comp.L
                     ∨ (compileConjunct (eng.get_indexes_names t) oc).key.c = Comp.LE then
                  EngineCall.rangeSearch t Key.keyMin
                    (.attr (compileConjunct (eng.get_indexes_names t) oc).key.column_name
                           (compileConjunct (eng.get_indexes_names t) oc).key.value)
                    (compileConjunct (eng.get_indexes_names t) oc).lambdas
                    (eng.sort_attributes t cols)
                 else
                  EngineCall.rangeSearch t
                    (.attr (compileConjunct (eng.get_indexes_names t) oc).key.column_name
                           (compileConjunct (eng.get_indexes_names t) oc).key.value)
                    Key.keyMax
                    (compileConjunct (eng.get_indexes_names t) oc).lambdas
                    (eng.sort_attributes t cols)) :: laterCalls, out)
      ∧ preCalls.length = pre.length := by
  have hkeys : ∀ d ∈ pre,
      (compileConjunct (eng.get_indexes_names t) d).key.column_name ≠ "" := by
    intro d hdm
    exact foldl_compileStep_key_ne_empty _ d _ (Or.inr (hpre d hdm))
  have hnn : pre ++ oc :: post ≠ [] := by
    intro hcontra
    exact absurd (List.append_eq_nil.mp hcontra).2 (List.cons_ne_nil oc post)
  rw [select_eq_loop eng prev t cols _ hnn]
  obtain ⟨extra, qr2, h1, h2, h3⟩ :=
    selectLoop_skip_indexed eng t (eng.sort_attributes t cols) pre (oc :: post)
      ⟨[], []⟩ [] hkeys
  rw [h1]
  simp only [selectLoop]
  rw [if_neg hk]
  cases hc5 : (compileConjunct (eng.get_indexes_names t) oc).key.c with
  | EQUAL =>
    rw [if_pos rfl]
    obtain ⟨more, hmore⟩ :=
      selectLoop_calls_extend eng t (eng.sort_attributes t cols) post _ _
    exact ⟨extra, more, _, by rw [hmore, if_pos rfl, List.nil_append, List.append_assoc, List.singleton_append], h2⟩
  | L =>
    rw [if_neg (by intro hcontra; exact Comp.noConfusion hcontra)]
    obtain ⟨more, hmore⟩ :=
      selectLoop_calls_extend eng t (eng.sort_attributes t cols) post _ _
    exact ⟨extra, more, _, by rw [hmore, if_neg (by intro hcontra; exact Comp.noConfusion hcontra),
        if_pos (Or.inl rfl), List.nil_append, List.append_assoc, List.singleton_append], h2⟩
  | LE =>
    rw [if_neg (by intro hcontra; exact Comp.noConfusion hcontra)]
    obtain ⟨more, hmore⟩ :=
      selectLoop_calls_extend eng t (eng.sort_attributes t cols) post _ _
    exact ⟨extra, more, _, by rw [hmore, if_neg (by intro hcontra; exact Comp.noConfusion hcontra),
        if_pos (Or.inr rfl), List.nil_append, List.append_assoc, List.singleton_append], h2⟩
  | G =>
    rw [if_neg (by intro hcontra; exact Comp.noConfusion hcontra)]
    obtain ⟨more, hmore⟩ :=
      selectLoop_calls_extend eng t (eng.sort_attributes t cols) post _ _
    exact ⟨extra, more, _, by rw [hmore, if_neg (by intro hcontra; exact Comp.noConfusion hcontra),
        if_neg (by rintro (hcontra | hcontra) <;> exact Comp.noConfusion hcontra),
        List.nil_append, List.append_assoc, List.singleton_append], h2⟩
  | GE =>
    rw [if_neg (by intro hcontra; exact Comp.noConfusion hcontra)]
    obtain ⟨more, hmore⟩ :=
      selectLoop_calls_extend eng t (eng.sort_attributes t cols) post _ _
    exact ⟨extra, more, _, by rw [hmore, if_neg (by intro hcontra; exact Comp.noConfusion hcontra),
        if_neg (by rintro (hcontra | hcontra) <;> exact Comp.noConfusion hcontra),
        List.nil_append, List.append_assoc, List.singleton_append], h2⟩

/-- C8 witness: a single disjunct `a ≥ 5` over the indexed column `a`
yields a `range_search` from `{a, 5}` to `KEY_MAX` with an empty residual
and the sorted columns. -/
theorem index_driver_call_shape_witness :
    ∃ preCalls laterCalls out,
      select engEx emptyResponse "t" ["a", "b"] ([] ++ [⟨"a", "5", Comp.GE⟩] :: [])
        = .ok (preCalls ++
                (if (compileConjunct (engEx.get_indexes_names "t")
                      [⟨"a", "5", Comp.GE⟩]).key.c = Comp.EQUAL then
                  EngineCall.search "t"
                    (.attr (compileConjunct (engEx.get_indexes_names "t")
                              [⟨"a", "5", Comp.GE⟩]).key.column_name
                           (compileConjunct (engEx.get_indexes_names "t")
                              [⟨"a", "5", Comp.GE⟩]).key.value)
                    (compileConjunct (engEx.get_indexes_names "t")
                      [⟨"a", "5", Comp.GE⟩]).lambdas
                    (engEx.sort_attributes "t" ["a", "b"])
                 else if (compileConjunct (engEx.get_indexes_names "t")
                       [⟨"a", "5", Comp.GE⟩]).key.c = Comp.L
                     ∨ (compileConjunct (engEx.get_indexes_names "t")
                       [⟨"a", "5", Comp.GE⟩]).key.c = Comp.LE then
                  EngineCall.rangeSearch "t" Key.keyMin
                    (.attr (compileConjunct (engEx.get_indexes_names "t")
                              [⟨"a", "5", Comp.GE⟩]).key.column_name
                           (compileConjunct (engEx.get_indexes_names "t")
                              [⟨"a", "5", Comp.GE⟩]).key.value)
                    (compileConjunct (engEx.get_indexes_names "t")
                      [⟨"a", "5", Comp.GE⟩]).lambdas
                    (engEx.sort_attributes "t" ["a", "b"])
                 else
                  EngineCall.rangeSearch "t"
                    (.attr (compileConjunct (engEx.get_indexes_names "t")
                              [⟨"a", "5", Comp.GE⟩]).key.column_name
                           (compileConjunct (engEx.get_indexes_names "t")
                              [⟨"a", "5", Comp.GE⟩]).key.value)
                    Key.keyMax
                    (compileConjunct (engEx.get_indexes_names "t")
                      [⟨"a", "5", Comp.GE⟩]).lambdas
                    (engEx.sort_attributes "t" ["a", "b"])) :: laterCalls, out)
      ∧ preCalls.length = ([] : List (List condition_t)).length :=
  index_driver_call_shape engEx emptyResponse "t" ["a", "b"]
    [] [⟨"a", "5", Comp.GE⟩] [] (by decide) (by decide)

/-- C4 counterexample: `select_between` copies the requested columns and
discards the result of `sort_attributes`, so the BETWEEN response carries
the request-order columns: requesting `[c, a]` over schema `[a, b, c]`
emits `[c, a]`, not the schema order `[a, c]`, and the permutation
`[a, c]` emits a different list — the claimed schema order and
permutation-invariance both fail for SELECT … BETWEEN. -/
theorem select_between_request_order_cex :
    (∃ tr r, select_between engEx emptyResponse "t" ["c", "a"] "a" "1" "9" = .ok (tr, r)
      ∧ r.column_names = ["c", "a"]
      ∧ r.column_names ≠ (engEx.get_table_attributes "t").filter
          (fun a => (["c", "a"] : List String).contains a))
    ∧ (∃ tr r, select_between engEx emptyResponse "t" ["a", "c"] "a" "1" "9" = .ok (tr, r)
      ∧ r.column_names = ["a", "c"]) :=
  ⟨⟨_, _, rfl, rfl, by decide⟩, ⟨_, _, rfl, rfl⟩⟩

/-- C4 (amended): for every SELECT whose requested columns all exist in the
table, the emitted `column_names` equal the table's schema order filtered
to the requested set, invariant under any permutation of the request
(`colsPerm` is the order actually requested, `cols` any permutation of
it); SELECT … BETWEEN instead emits the requested columns in request order
(the sorted list returned by `sort_attributes` is discarded at its call
site), so the schema-order property does not extend to BETWEEN. -/
theorem column_order_invariance
    (eng : Engine) (prev : ParserResponse) (t : String)
    (cs : List (List condition_t)) (id v1 v2 : String)
    (cols colsPerm : List String)
    (hperm : cols.Perm colsPerm)
    (hex : ∀ c ∈ cols, c ∈ eng.get_table_attributes t) :
    ∃ tr1 r1 tr2 r2,
      select eng prev t colsPerm cs = .ok (tr1, r1)
      ∧ select_between eng prev t colsPerm id v1 v2 = .ok (tr2, r2)
      ∧ r1.column_names = (eng.get_table_attributes t).filter (fun a => cols.contains a)
      ∧ r2.column_names = colsPerm := by
  have hcont : ∀ a, colsPerm.contains a = cols.contains a := by
    intro a
    by_cases hm : a ∈ cols
    · have h1 : cols.contains a = true := List.elem_iff.mpr hm
      have h2 : colsPerm.contains a = true := List.elem_iff.mpr (hperm.mem_iff.mp hm)
      rw [h1, h2]
    · have h1 : cols.contains a = false := by
        rw [← Bool.not_eq_true]
        exact fun hcontra => hm (List.elem_iff.mp hcontra)
      have h2 : colsPerm.contains a = false := by
        rw [← Bool.not_eq_true]
        exact fun hcontra => hm (hperm.mem_iff.mpr (List.elem_iff.mp hcontra))
      rw [h1, h2]
  have hfilters : (eng.get_table_attributes t).filter (fun a => colsPerm.contains a)
      = (eng.get_table_attributes t).filter (fun a => cols.contains a) :=
    List.filter_congr (fun a _ => hcont a)
  have hexPerm : ∀ c ∈ colsPerm, c ∈ eng.get_table_attributes t :=
    fun c hc => hex c (hperm.mem_iff.mpr hc)
  obtain ⟨tr1, r1, h1⟩ := select_returns_ok eng prev t colsPerm cs
  refine ⟨tr1, r1, _, _, h1,
    select_between_eq eng prev t colsPerm id v1 v2 hexPerm, ?_, ?_⟩
  · rw [select_ok_column_names eng prev t colsPerm cs tr1 r1 h1]
    exact hfilters
  · rfl

/-- C4 witness: requesting `[a, c]` (a permutation of `[c, a]`) over the
schema `[a, b, c]` yields `column_names = [a, c]` (schema order) for
SELECT, and the request-order list `[a, c]` for SELECT … BETWEEN. -/
theorem column_order_invariance_witness :
    ∃ tr1 r1 tr2 r2,
      select engEx emptyResponse "t" ["a", "c"] [] = .ok (tr1, r1)
      ∧ select_between engEx emptyResponse "t" ["a", "c"] "a" "1" "9" = .ok (tr2, r2)
      ∧ r1.column_names
          = (engEx.get_table_attributes "t").filter
              (fun a => (["c", "a"] : List String).contains a)
      ∧ r2.column_names = ["a", "c"] :=
  column_order_invariance engEx emptyResponse "t" [] "a" "1" "9"
    ["c", "a"] ["a", "c"] (by decide) (by decide)

end SqlDB
